import Mathlib

/-!
# Verification of the memdbg hex formatter

Shallow embedding of `Buf::fmt` and `write_ascii` from `src/lib.rs` of the
memdbg crate, together with proofs of the specified properties.

The source renders a byte buffer as an alignment-aware hex/ASCII dump:

* `align = core::mem::align_of::<usize>()` in the source is a platform
  constant; the spec treats it as an explicit parameter, and so do we.
* `offset = ptr.align_offset(align)` is likewise address-dependent in the
  source; following the spec it is an explicit `alignment_offset` parameter.
* Machine integers (`u8`, `usize`) are modelled as `Fin 256` / `Nat`;
  all the arithmetic in the source (`32 / align`, `min`, subtraction,
  `fill / align`) stays in `Nat`, matching `usize` semantics on the
  reachable inputs (the subtraction `align * chunks_per_line - line.len()`
  never underflows because chunks are at most the chunk size long).
* Each `f.write_str` / `f.write_fmt` call of the source is modelled as one
  emitted token (`Tok`); the rendered output is the concatenation of the
  rendered tokens.  A second, state-passing model (`fmtRun`) threads the
  formatter's accumulated string exactly as the `Formatter` does, and is
  proved to agree with the token model.
* Rust panics are modelled as `Option.none`: `32 / align` panics when
  `align = 0`, and `rest.chunks(align * chunks_per_line)` panics when the
  chunk size `align * chunks_per_line` is `0` (i.e. when `align > 32`),
  because `slice::chunks` requires a non-zero chunk size.
-/

namespace Memdbg

/-- A byte, the model of Rust `u8`. -/
abbrev Byte := Fin 256

/-- Upper-case hex digit for `n < 16`, as produced by the `{:02X}` format. -/
def hexDigit (n : Nat) : Char :=
  if n < 10 then Char.ofNat (48 + n) else Char.ofNat (55 + n)

/-- The two-digit upper-case hex rendering `XX` of a byte (`{:02X}`). -/
def hex2 (b : Byte) : String :=
  String.mk [hexDigit (b.val / 16), hexDigit (b.val % 16)]

/-- Model of `u8::is_ascii_graphic`: `b'!'..=b'~'`, i.e. `0x21..=0x7E`. -/
def isAsciiGraphic (b : Byte) : Bool :=
  0x21 ≤ b.val && b.val ≤ 0x7E

/-- The one character the ASCII column prints for a byte: the literal
character when the byte is ASCII-graphic, otherwise the placeholder. -/
def asciiChar (b : Byte) : String :=
  if isAsciiGraphic b then String.mk [Char.ofNat b.val] else "."

/-- One token per `write_str`/`write_fmt` call performed by `Buf::fmt` and
`write_ascii`. -/
inductive Tok where
  /-- `f.write_fmt(format_args!(" {:02X}", char))` -/
  | hex (b : Byte)
  /-- `f.write_str(" |")` -/
  | bar
  /-- `f.write_str("\n")` -/
  | nl
  /-- `f.write_str(" ")`, one fill space -/
  | pad
  /-- `f.write_str(" | ")` -/
  | delim
  /-- one byte's output of `write_ascii` -/
  | ascii (b : Byte)
  deriving DecidableEq

/-- The text a single token contributes to the output. -/
def renderTok : Tok → String
  | .hex b => " " ++ hex2 b
  | .bar => " |"
  | .nl => "\n"
  | .pad => " "
  | .delim => " | "
  | .ascii b => asciiChar b

/-- Concatenated rendering of a token sequence. -/
def renderToks : List Tok → String
  | [] => ""
  | t :: ts => renderTok t ++ renderToks ts

/-- Token trace of `write_ascii`: one `Tok.ascii` per byte, in order. -/
def writeAscii (buf : List Byte) : List Tok :=
  buf.map Tok.ascii

/-- Fuel-indexed worker for `chunks`; the fuel is an upper bound on the
list length, so the recursion is structural and kernel-reducible. -/
def chunksAux (k : Nat) : Nat → List α → List (List α)
  | 0, _ => []
  | _, [] => []
  | fuel + 1, x :: xs => (x :: xs).take k :: chunksAux k fuel ((x :: xs).drop k)

/-- Model of Rust `slice::chunks(k)` for `k > 0`: splits the list into
consecutive chunks of `k` elements, the last chunk possibly shorter.
(The `k = 0` case never arises: the source panics before iterating,
which `format` models as `none`.) -/
def chunks (k : Nat) (l : List α) : List (List α) :=
  chunksAux k l.length l

/-- The tokens one iteration of the `for line in rest.chunks(..)` loop of
`Buf::fmt` emits after its leading `"\n"`: the per-`align` sub-chunks each
preceded by `" |"`, the fill spaces of a short last line, the `" | "`
delimiter, and the ASCII column.  This is also exactly the content of one
output line. -/
def lineToks (align cpl : Nat) (line : List Byte) : List Tok :=
  let hexPart := (chunks align line).flatMap fun bytes => Tok.bar :: bytes.map Tok.hex
  let fill := align * cpl - line.length
  let fill := 3 * fill + 2 * (fill / align)
  hexPart ++ List.replicate fill Tok.pad ++ [Tok.delim] ++ writeAscii line

/-- Token trace of one full iteration of the `for line in rest.chunks(..)`
loop body of `Buf::fmt`: the newline, then the line content. -/
def fmtLine (align cpl : Nat) (line : List Byte) : List Tok :=
  Tok.nl :: lineToks align cpl line

/-- Token trace of the whole of `Buf::fmt`: the unaligned `pre` run as flat
hex, `" |"` if `pre` is non-empty, the ASCII rendering of `pre`, then one
`fmtLine` per chunk of `align * chunks_per_line` bytes of `rest`. -/
def fmtToks (bytes : List Byte) (align off : Nat) : List Tok :=
  let chunks_per_line := 32 / align
  let offset := min off bytes.length
  let pre := bytes.take offset
  let rest := bytes.drop offset
  pre.map Tok.hex
    ++ (if pre.isEmpty then [] else [Tok.bar])
    ++ writeAscii pre
    ++ (chunks (align * chunks_per_line) rest).flatMap (fmtLine align chunks_per_line)

/-- The full formatter, `format(bytes, align, alignment_offset)`.
`none` models a panic: `32 / align` panics for `align = 0`, and
`rest.chunks(align * chunks_per_line)` panics when its argument is `0`,
i.e. exactly when `32 / align = 0`. -/
def format (bytes : List Byte) (align off : Nat) : Option String :=
  if 32 / align = 0 then none else some (renderToks (fmtToks bytes align off))

/-! ## Derived observation functions on token traces -/

/-- The bytes rendered as two-digit hex tokens, in emission order. -/
def hexBytes (ts : List Tok) : List Byte :=
  ts.filterMap fun t => match t with | Tok.hex b => some b | _ => none

/-- The bytes rendered in the ASCII column, in emission order. -/
def asciiBytes (ts : List Tok) : List Byte :=
  ts.filterMap fun t => match t with | Tok.ascii b => some b | _ => none

/-- The number of line breaks in a token trace. -/
def nlCount (ts : List Tok) : Nat :=
  ts.countP fun t => match t with | Tok.nl => true | _ => false

/-! ## Lemmas about `chunks` -/

theorem chunksAux_fuel {α : Type _} {k : Nat} (hk : 0 < k) :
    ∀ (f1 f2 : Nat) (l : List α), l.length ≤ f1 → l.length ≤ f2 →
      chunksAux k f1 l = chunksAux k f2 l := by
  intro f1
  induction f1 with
  | zero =>
    intro f2 l h1 _
    have hl : l = [] := List.eq_nil_of_length_eq_zero (Nat.le_zero.mp h1)
    subst hl
    cases f2 <;> rfl
  | succ f1 ih =>
    intro f2 l h1 h2
    cases l with
    | nil => cases f2 <;> rfl
    | cons x xs =>
      simp only [List.length_cons] at h1 h2
      cases f2 with
      | zero => omega
      | succ f2 =>
        simp only [chunksAux]
        congr 1
        exact ih f2 _ (by simp only [List.length_drop, List.length_cons]; omega)
          (by simp only [List.length_drop, List.length_cons]; omega)

theorem chunks_nil {α : Type _} (k : Nat) : chunks k ([] : List α) = [] := rfl

theorem chunks_cons {α : Type _} {k : Nat} (hk : 0 < k) (x : α) (xs : List α) :
    chunks k (x :: xs) = (x :: xs).take k :: chunks k ((x :: xs).drop k) := by
  simp only [chunks, List.length_cons, chunksAux]
  congr 1
  exact chunksAux_fuel hk xs.length _ _
    (by simp only [List.length_drop, List.length_cons]; omega) le_rfl

/-- Chunking then flattening recovers the list. -/
theorem chunks_flatten {α : Type _} {k : Nat} (hk : 0 < k) :
    (l : List α) → (chunks k l).flatten = l
  | [] => rfl
  | x :: xs => by
    rw [chunks_cons hk, List.flatten_cons, chunks_flatten hk ((x :: xs).drop k)]
    exact List.take_append_drop k (x :: xs)
termination_by l => l.length
decreasing_by simp only [List.length_drop, List.length_cons]; omega

/-- Every chunk is non-empty and at most `k` long. -/
theorem chunks_mem {α : Type _} {k : Nat} (hk : 0 < k) :
    (l : List α) → ∀ c ∈ chunks k l, c.length ≤ k ∧ c ≠ []
  | [] => by intro c hc; cases hc
  | x :: xs => by
    rw [chunks_cons hk]
    intro c hc
    rcases List.mem_cons.mp hc with h | h
    · subst h
      refine ⟨by simp only [List.length_take, List.length_cons]; omega, ?_⟩
      cases k with
      | zero => omega
      | succ k => simp
    · exact chunks_mem hk ((x :: xs).drop k) c h
termination_by l => l.length
decreasing_by simp only [List.length_drop, List.length_cons]; omega

/-- The number of chunks is the length divided by `k`, rounded up. -/
theorem chunks_length {α : Type _} {k : Nat} (hk : 0 < k) :
    (l : List α) → (chunks k l).length = (l.length + k - 1) / k
  | [] => by
    rw [chunks_nil]
    simp only [List.length_nil]
    rw [Nat.div_eq_of_lt (by omega)]
  | x :: xs => by
    rw [chunks_cons hk, List.length_cons, chunks_length hk ((x :: xs).drop k)]
    simp only [List.length_drop, List.length_cons]
    rcases le_or_lt (xs.length + 1) k with hle | hlt
    · have h1 : xs.length + 1 - k = 0 := by omega
      rw [h1]
      rw [Nat.div_eq_of_lt (by omega)]
      have h3 : xs.length + 1 + k - 1 = k * 1 + xs.length := by omega
      rw [h3, Nat.mul_add_div hk, Nat.div_eq_of_lt (by omega)]
    · have h4 : xs.length + 1 - k + k - 1 = xs.length + 1 - 1 := by omega
      have h3 : xs.length + 1 + k - 1 = k * 1 + (xs.length + 1 - 1) := by omega
      rw [h4, h3, Nat.mul_add_div hk]
      omega
termination_by l => l.length
decreasing_by simp only [List.length_drop, List.length_cons]; omega

/-- A list that fits in one chunk is its own single chunk. -/
theorem chunks_single {α : Type _} {k : Nat} (hk : 0 < k) (l : List α)
    (hne : l ≠ []) (hlen : l.length ≤ k) : chunks k l = [l] := by
  cases l with
  | nil => exact absurd rfl hne
  | cons x xs =>
    rw [chunks_cons hk]
    have h1 : (x :: xs).take k = x :: xs := List.take_of_length_le hlen
    have h2 : (x :: xs).drop k = [] := List.drop_eq_nil_of_le hlen
    rw [h1, h2, chunks_nil]

/-! ## Lemmas about the observation functions -/

theorem hexBytes_append (ts us : List Tok) :
    hexBytes (ts ++ us) = hexBytes ts ++ hexBytes us :=
  List.filterMap_append ts us _

theorem asciiBytes_append (ts us : List Tok) :
    asciiBytes (ts ++ us) = asciiBytes ts ++ asciiBytes us :=
  List.filterMap_append ts us _

theorem hexBytes_cons_hex (b : Byte) (ts : List Tok) :
    hexBytes (Tok.hex b :: ts) = b :: hexBytes ts := rfl

theorem hexBytes_cons_ascii (b : Byte) (ts : List Tok) :
    hexBytes (Tok.ascii b :: ts) = hexBytes ts := rfl

theorem hexBytes_cons_pad (ts : List Tok) :
    hexBytes (Tok.pad :: ts) = hexBytes ts := rfl

theorem hexBytes_cons_bar (ts : List Tok) :
    hexBytes (Tok.bar :: ts) = hexBytes ts := rfl

theorem hexBytes_cons_nl (ts : List Tok) :
    hexBytes (Tok.nl :: ts) = hexBytes ts := rfl

theorem asciiBytes_cons_ascii (b : Byte) (ts : List Tok) :
    asciiBytes (Tok.ascii b :: ts) = b :: asciiBytes ts := rfl

theorem asciiBytes_cons_hex (b : Byte) (ts : List Tok) :
    asciiBytes (Tok.hex b :: ts) = asciiBytes ts := rfl

theorem asciiBytes_cons_pad (ts : List Tok) :
    asciiBytes (Tok.pad :: ts) = asciiBytes ts := rfl

theorem asciiBytes_cons_bar (ts : List Tok) :
    asciiBytes (Tok.bar :: ts) = asciiBytes ts := rfl

theorem asciiBytes_cons_nl (ts : List Tok) :
    asciiBytes (Tok.nl :: ts) = asciiBytes ts := rfl

theorem hexBytes_hexMap (l : List Byte) : hexBytes (l.map Tok.hex) = l := by
  induction l with
  | nil => rfl
  | cons b l ih => rw [List.map_cons, hexBytes_cons_hex, ih]

theorem hexBytes_writeAscii (l : List Byte) : hexBytes (writeAscii l) = [] := by
  induction l with
  | nil => rfl
  | cons b l ih => rw [writeAscii, List.map_cons, hexBytes_cons_ascii]; exact ih

theorem hexBytes_pads (n : Nat) : hexBytes (List.replicate n Tok.pad) = [] := by
  induction n with
  | zero => rfl
  | succ n ih => rw [List.replicate_succ, hexBytes_cons_pad, ih]

theorem asciiBytes_writeAscii (l : List Byte) : asciiBytes (writeAscii l) = l := by
  induction l with
  | nil => rfl
  | cons b l ih => rw [writeAscii, List.map_cons, asciiBytes_cons_ascii]; rw [← writeAscii, ih]

theorem asciiBytes_hexMap (l : List Byte) : asciiBytes (l.map Tok.hex) = [] := by
  induction l with
  | nil => rfl
  | cons b l ih => rw [List.map_cons, asciiBytes_cons_hex, ih]

theorem asciiBytes_pads (n : Nat) : asciiBytes (List.replicate n Tok.pad) = [] := by
  induction n with
  | zero => rfl
  | succ n ih => rw [List.replicate_succ, asciiBytes_cons_pad, ih]

theorem hexBytes_flatMap {β : Type _} (g : β → List Tok) (l : List β) :
    hexBytes (l.flatMap g) = l.flatMap fun b => hexBytes (g b) := by
  induction l with
  | nil => rfl
  | cons x xs ih => simp [List.flatMap_cons, hexBytes_append, ih]

theorem asciiBytes_flatMap {β : Type _} (g : β → List Tok) (l : List β) :
    asciiBytes (l.flatMap g) = l.flatMap fun b => asciiBytes (g b) := by
  induction l with
  | nil => rfl
  | cons x xs ih => simp [List.flatMap_cons, asciiBytes_append, ih]

theorem hexBytes_delim : hexBytes [Tok.delim] = [] := rfl

theorem asciiBytes_delim : asciiBytes [Tok.delim] = [] := rfl

theorem flatMap_self {α : Type _} (l : List (List α)) :
    (l.flatMap fun x => x) = l.flatten := by
  induction l with
  | nil => rfl
  | cons x xs ih => simp [List.flatMap_cons, List.flatten_cons, ih]

theorem flatMap_nil_fun {α β : Type _} (l : List α) :
    (l.flatMap fun _ => ([] : List β)) = [] := by
  induction l with
  | nil => rfl
  | cons x xs ih => simp [List.flatMap_cons, ih]

/-- The hex column of one line renders exactly the line's bytes, in order. -/
theorem hexBytes_lineToks {align cpl : Nat} (hk : 0 < align) (line : List Byte) :
    hexBytes (lineToks align cpl line) = line := by
  have h1 : (fun bytes : List Byte => hexBytes (Tok.bar :: bytes.map Tok.hex))
      = fun bytes => bytes := by
    funext bytes
    show hexBytes (Tok.bar :: bytes.map Tok.hex) = bytes
    rw [hexBytes_cons_bar, hexBytes_hexMap]
  simp only [lineToks, hexBytes_append, hexBytes_pads, hexBytes_writeAscii,
    hexBytes_delim, List.append_nil]
  rw [hexBytes_flatMap, h1, flatMap_self, chunks_flatten hk]

/-- The ASCII column of one line renders exactly the line's bytes, in order. -/
theorem asciiBytes_lineToks (align cpl : Nat) (line : List Byte) :
    asciiBytes (lineToks align cpl line) = line := by
  have h1 : (fun bytes : List Byte => asciiBytes (Tok.bar :: bytes.map Tok.hex))
      = fun bytes => ([] : List Byte) := by
    funext bytes
    show asciiBytes (Tok.bar :: bytes.map Tok.hex) = []
    rw [asciiBytes_cons_bar, asciiBytes_hexMap]
  simp only [lineToks, asciiBytes_append, asciiBytes_pads, asciiBytes_writeAscii,
    asciiBytes_delim, List.append_nil]
  rw [asciiBytes_flatMap, h1, flatMap_nil_fun]
  simp

theorem hexBytes_barIf (p : Prop) [Decidable p] :
    hexBytes (if p then [] else [Tok.bar]) = [] := by
  split <;> rfl

theorem asciiBytes_barIf (p : Prop) [Decidable p] :
    asciiBytes (if p then [] else [Tok.bar]) = [] := by
  split <;> rfl

/-- The hex column of the whole trace lists exactly the input bytes. -/
theorem hexBytes_fmtToks (B : List Byte) (align off : Nat)
    (h1 : 0 < align) (h2 : align ≤ 32) :
    hexBytes (fmtToks B align off) = B := by
  have hcpl : 0 < 32 / align := Nat.div_pos h2 h1
  have hsz : 0 < align * (32 / align) := Nat.mul_pos h1 hcpl
  have hline : (fun line => hexBytes (fmtLine align (32 / align) line))
      = fun line => line := by
    funext line
    show hexBytes (fmtLine align (32 / align) line) = line
    rw [fmtLine, hexBytes_cons_nl, hexBytes_lineToks h1]
  simp only [fmtToks, hexBytes_append, hexBytes_hexMap, hexBytes_writeAscii,
    hexBytes_barIf, List.append_nil]
  rw [hexBytes_flatMap, hline, flatMap_self, chunks_flatten hsz,
    List.take_append_drop]

/-- The ASCII column of the whole trace lists exactly the input bytes. -/
theorem asciiBytes_fmtToks (B : List Byte) (align off : Nat)
    (h1 : 0 < align) (h2 : align ≤ 32) :
    asciiBytes (fmtToks B align off) = B := by
  have hcpl : 0 < 32 / align := Nat.div_pos h2 h1
  have hsz : 0 < align * (32 / align) := Nat.mul_pos h1 hcpl
  have hline : (fun line => asciiBytes (fmtLine align (32 / align) line))
      = fun line => line := by
    funext line
    show asciiBytes (fmtLine align (32 / align) line) = line
    rw [fmtLine, asciiBytes_cons_nl, asciiBytes_lineToks]
  simp only [fmtToks, asciiBytes_append, asciiBytes_hexMap, asciiBytes_writeAscii,
    asciiBytes_barIf, List.append_nil, List.nil_append]
  rw [asciiBytes_flatMap, hline, flatMap_self, chunks_flatten hsz,
    List.take_append_drop]

/-- C1 — Byte-count conservation: for every byte sequence `B`, every
`align` the formatter supports (`0 < align ≤ 32`, i.e. whenever the
rendered output exists) and every alignment offset, the output renders
exactly `B.length` two-digit hex tokens and exactly `B.length`
ASCII-column characters, and both columns list the bytes of `B` in their
original order with no byte dropped, duplicated, or reordered. -/
theorem byte_count_conservation (B : List Byte) (align off : Nat)
    (h1 : 0 < align) (h2 : align ≤ 32) :
    format B align off = some (renderToks (fmtToks B align off)) ∧
    hexBytes (fmtToks B align off) = B ∧
    asciiBytes (fmtToks B align off) = B ∧
    (hexBytes (fmtToks B align off)).length = B.length ∧
    (asciiBytes (fmtToks B align off)).length = B.length := by
  have hcpl : 0 < 32 / align := Nat.div_pos h2 h1
  refine ⟨by rw [format, if_neg (by omega)], hexBytes_fmtToks B align off h1 h2,
    asciiBytes_fmtToks B align off h1 h2, ?_, ?_⟩
  · rw [hexBytes_fmtToks B align off h1 h2]
  · rw [asciiBytes_fmtToks B align off h1 h2]

/-- Witness for C1: concrete instance at `B = [0x41, 0x00, 0x7F]`,
`align = 8`, offset `0`. -/
theorem byte_count_conservation_witness :
    (0 : Nat) < 8 ∧ (8 : Nat) ≤ 32 ∧
    (format [0x41, 0x00, 0x7F] 8 0
        = some (renderToks (fmtToks [0x41, 0x00, 0x7F] 8 0)) ∧
      hexBytes (fmtToks [0x41, 0x00, 0x7F] 8 0) = [0x41, 0x00, 0x7F] ∧
      asciiBytes (fmtToks [0x41, 0x00, 0x7F] 8 0) = [0x41, 0x00, 0x7F] ∧
      (hexBytes (fmtToks [0x41, 0x00, 0x7F] 8 0)).length
        = ([0x41, 0x00, 0x7F] : List Byte).length ∧
      (asciiBytes (fmtToks [0x41, 0x00, 0x7F] 8 0)).length
        = ([0x41, 0x00, 0x7F] : List Byte).length) :=
  ⟨by decide, by decide,
    byte_count_conservation [0x41, 0x00, 0x7F] 8 0 (by decide) (by decide)⟩

/-- C5 — Prefix clamping: an alignment offset larger than the buffer
length behaves exactly like an offset equal to the buffer length, for
every byte sequence and every `align` (the offset is clamped by
`min(offset, len)` before it is used). -/
theorem clamp_offset (B : List Byte) (align off : Nat) (h : B.length < off) :
    format B align off = format B align B.length := by
  have hmin : fmtToks B align off = fmtToks B align B.length := by
    simp only [fmtToks]
    rw [Nat.min_eq_right (Nat.le_of_lt h), Nat.min_self]
  unfold format
  split
  · rfl
  · rw [hmin]

/-- Witness for C5: `B = [0x41]`, `align = 8`, offset `3 > 1`. -/
theorem clamp_offset_witness :
    ([0x41] : List Byte).length < 3 ∧
    format [0x41] 8 3 = format [0x41] 8 ([0x41] : List Byte).length :=
  ⟨by decide, clamp_offset [0x41] 8 3 (by decide)⟩

set_option maxRecDepth 40000 in
/-- C3 — Concrete formatting example: `format([0x41,0x20,0x68,0x20,0x90,0x00],
align=4, alignment_offset=0)` emits a line break, then its single line:
`" | 41 20 68 20"` for the first group of four, `" | 90 00"` for the second
group, 90 fill spaces padding the short line to the full 32-byte line width,
the `" | "` delimiter, and the ASCII column `"A.h..."` (space and the
non-graphic bytes `0x90`, `0x00` render as `.`). -/
theorem align4_example :
    format [0x41, 0x20, 0x68, 0x20, 0x90, 0x00] 4 0
      = some ("\n | 41 20 68 20 | 90 00"
          ++ String.mk (List.replicate 90 ' ') ++ " | A.h...") := by
  decide

/-- C4 — ASCII placeholder rule: a byte in the printable non-space graphic
range `0x21..=0x7E` is rendered in the ASCII column as its literal
character, and every other byte value (`0x00`, `0x09`, `0x0A`, space
`0x20`, `0x7F`, and all of `0x80..=0xFF`) as the single placeholder
`'.'`. -/
theorem ascii_placeholder (b : Byte) :
    renderTok (Tok.ascii b)
      = if 0x21 ≤ b.val ∧ b.val ≤ 0x7E then String.mk [Char.ofNat b.val]
        else "." := by
  show asciiChar b = _
  rw [asciiChar]
  by_cases h : 0x21 ≤ b.val ∧ b.val ≤ 0x7E
  · rw [if_pos h, if_pos]
    simp [isAsciiGraphic, h.1, h.2]
  · rw [if_neg h, if_neg]
    intro hc
    apply h
    simp only [isAsciiGraphic, Bool.and_eq_true, decide_eq_true_eq] at hc
    exact hc

/-- C7 counterexample — the claim quantifies over every positive `align`,
but at `align = 33` (so `chunks_per_line = 32 / 33 = 0`) the source panics
in `rest.chunks(0)` even on the empty buffer, instead of returning the
empty string. -/
theorem empty_input_cex : format ([] : List Byte) 33 0 ≠ some "" := by decide

/-- C7 (amended) — Empty input: for every `align` the formatter supports
(`0 < align ≤ 32`), `format([], align, 0)` returns the empty string. -/
theorem empty_input (align : Nat) (h1 : 0 < align) (h2 : align ≤ 32) :
    format ([] : List Byte) align 0 = some "" := by
  have hcpl : 0 < 32 / align := Nat.div_pos h2 h1
  rw [format, if_neg (by omega)]
  rfl

/-- Witness for C7 at `align = 4`. -/
theorem empty_input_witness :
    (0 : Nat) < 4 ∧ (4 : Nat) ≤ 32 ∧ format ([] : List Byte) 4 0 = some "" :=
  ⟨by decide, by decide, empty_input 4 (by decide) (by decide)⟩

/-- C8 counterexample — `align = 33` is positive, yet formatting does not
succeed: `chunks_per_line = 32 / 33 = 0`, and `rest.chunks(0)` panics
(`slice::chunks` requires a non-zero chunk size), modelled as `none`. -/
theorem align_totality_cex :
    (0 : Nat) < 33 ∧ format ([0x00] : List Byte) 33 0 = none := by decide

/-- C8 (amended) — Totality: `align = 0` panics (division by zero), as the
claim's precondition allows, but `align > 0` alone is not sufficient: the
divisions are well defined and formatting succeeds for every byte sequence
and every offset exactly when `0 < align ≤ 32` (so that
`chunks_per_line = 32 / align ≥ 1`); for `align > 32` the chunk size is
`0` and the chunking panics. -/
theorem align_totality (B : List Byte) (align off : Nat)
    (h1 : 0 < align) (h2 : align ≤ 32) :
    (format B align off).isSome = true ∧ format B 0 off = none := by
  have hcpl : 0 < 32 / align := Nat.div_pos h2 h1
  constructor
  · rw [format, if_neg (by omega)]
    rfl
  · rw [format, if_pos]
    rfl

/-- Witness for C8 at `B = [0x90]`, `align = 8`, offset `5`. -/
theorem align_totality_witness :
    (0 : Nat) < 8 ∧ (8 : Nat) ≤ 32 ∧
    ((format ([0x90] : List Byte) 8 5).isSome = true ∧
      format ([0x90] : List Byte) 0 5 = none) :=
  ⟨by decide, by decide, align_totality [0x90] 8 5 (by decide) (by decide)⟩

/-! ## Rendered widths and the position of the ASCII-column delimiter -/

theorem renderToks_append (ts us : List Tok) :
    renderToks (ts ++ us) = renderToks ts ++ renderToks us := by
  induction ts with
  | nil => simp [renderToks]
  | cons t ts ih => simp [renderToks, ih, String.append_assoc]

theorem renderTok_ascii_length (b : Byte) : (renderTok (Tok.ascii b)).length = 1 := by
  show (asciiChar b).length = 1
  rw [asciiChar]
  split <;> rfl

theorem renderToks_pads_length (n : Nat) :
    (renderToks (List.replicate n Tok.pad)).length = n := by
  induction n with
  | zero => rfl
  | succ n ih =>
    rw [List.replicate_succ]
    show ((" " : String) ++ renderToks (List.replicate n Tok.pad)).length = n + 1
    rw [String.length_append, ih]
    have h1 : (" " : String).length = 1 := rfl
    omega

theorem renderToks_hexMap_length (bytes : List Byte) :
    (renderToks (bytes.map Tok.hex)).length = 3 * bytes.length := by
  induction bytes with
  | nil => rfl
  | cons b bs ih =>
    rw [List.map_cons]
    show ((" " ++ hex2 b) ++ renderToks (bs.map Tok.hex)).length = 3 * (bs.length + 1)
    rw [String.length_append, ih]
    have : (" " ++ hex2 b).length = 3 := rfl
    omega

/-- Rendered width of the hex area: each sub-chunk costs 2 characters for
its `" |"` and 3 characters per byte. -/
theorem renderToks_hexArea_length (cs : List (List Byte)) :
    (renderToks (cs.flatMap fun bytes => Tok.bar :: bytes.map Tok.hex)).length
      = 2 * cs.length + 3 * cs.flatten.length := by
  induction cs with
  | nil => rfl
  | cons c cs ih =>
    rw [List.flatMap_cons, renderToks_append, String.length_append]
    show (renderToks (Tok.bar :: c.map Tok.hex)).length + _ = _
    have hc : (renderToks (Tok.bar :: c.map Tok.hex)).length = 2 + 3 * c.length := by
      show ((" |" : String) ++ renderToks (c.map Tok.hex)).length = 2 + 3 * c.length
      rw [String.length_append, renderToks_hexMap_length]
      have h1 : (" |" : String).length = 2 := rfl
      omega
    rw [hc, ih, List.flatten_cons, List.length_cons, List.length_append]
    ring

/-- `true` for every token except the `" | "` delimiter. -/
def notDelim : Tok → Bool
  | Tok.delim => false
  | _ => true

/-- The character offset at which the `" | "` ASCII-column delimiter starts,
within a rendered token sequence: the rendered length of everything emitted
before the first `Tok.delim`. -/
def delimOffset (ts : List Tok) : Nat :=
  (renderToks (ts.takeWhile notDelim)).length

theorem takeWhile_until_delim (xs ys : List Tok)
    (h : ∀ x ∈ xs, notDelim x = true) :
    (xs ++ Tok.delim :: ys).takeWhile notDelim = xs := by
  induction xs with
  | nil => simp [List.takeWhile_cons, notDelim]
  | cons x xs ih =>
    have hx : notDelim x = true := h x (List.mem_cons_self x xs)
    simp only [List.cons_append, List.takeWhile_cons, hx, if_true]
    rw [ih fun y hy => h y (List.mem_cons_of_mem x hy)]

/-- Ceiling-division identity behind the fill formula: the sub-chunks of the
present bytes plus the separator boundaries the fill accounts for always
total `cpl` boundaries. -/
theorem ceil_div_split {a cpl L : Nat} (ha : 0 < a) (hL : L ≤ a * cpl) :
    (L + a - 1) / a + (a * cpl - L) / a = cpl := by
  have hdm : a * (L / a) + L % a = L := Nat.div_add_mod L a
  set q := L / a with hq
  set r := L % a with hr
  have hrlt : r < a := Nat.mod_lt L ha
  have hqle : q ≤ cpl := by
    by_contra hc
    push_neg at hc
    have h2 : a * (cpl + 1) ≤ a * q := Nat.mul_le_mul_left a hc
    have h3 : a * (cpl + 1) = a * cpl + a := by ring
    omega
  obtain ⟨m, hm⟩ : ∃ m, cpl = q + m := ⟨cpl - q, by omega⟩
  have hmul : a * cpl = a * q + a * m := by rw [hm, Nat.mul_add]
  by_cases hr0 : r = 0
  · have e1 : L + a - 1 = a * q + (a - 1) := by omega
    have e2 : a * cpl - L = a * m := by omega
    rw [e1, e2, Nat.mul_add_div ha, Nat.div_eq_of_lt (by omega),
      Nat.mul_div_cancel_left m ha]
    omega
  · have hm1 : 1 ≤ m := by
      rcases Nat.eq_zero_or_pos m with h0 | h1
      · exfalso
        rw [h0, Nat.mul_zero] at hmul
        omega
      · exact h1
    have e1 : L + a - 1 = a * (q + 1) + (r - 1) := by
      have h4 : a * (q + 1) = a * q + a := by ring
      omega
    have e2 : a * cpl - L = a * (m - 1) + (a - r) := by
      have h5 : a * m = a * (m - 1) + a := by
        have h6 : m - 1 + 1 = m := by omega
        calc a * m = a * (m - 1 + 1) := by rw [h6]
          _ = a * (m - 1) + a := by ring
      omega
    rw [e1, e2, Nat.mul_add_div ha, Nat.mul_add_div ha,
      Nat.div_eq_of_lt (show r - 1 < a by omega),
      Nat.div_eq_of_lt (show a - r < a by omega)]
    omega

/-- The ASCII-column delimiter of every line sits at the same character
offset `3*align*cpl + 2*cpl` within the line, for every line no longer
than the full line width — the effect of the fill formula
`3*fill + 2*(fill/align)`. -/
theorem delimOffset_lineToks (align cpl : Nat) (h1 : 0 < align)
    (line : List Byte) (hlen : line.length ≤ align * cpl) :
    delimOffset (lineToks align cpl line) = 3 * (align * cpl) + 2 * cpl := by
  have hre : lineToks align cpl line
      = (((chunks align line).flatMap fun bytes => Tok.bar :: bytes.map Tok.hex)
          ++ List.replicate
              (3 * (align * cpl - line.length)
                + 2 * ((align * cpl - line.length) / align)) Tok.pad)
        ++ Tok.delim :: writeAscii line := by
    simp [lineToks, List.append_assoc]
  have hmem : ∀ x ∈ (((chunks align line).flatMap
        fun bytes => Tok.bar :: bytes.map Tok.hex)
      ++ List.replicate
          (3 * (align * cpl - line.length)
            + 2 * ((align * cpl - line.length) / align)) Tok.pad),
      notDelim x = true := by
    intro x hx
    rcases List.mem_append.mp hx with hx | hx
    · rcases List.mem_flatMap.mp hx with ⟨bytes, _, hxb⟩
      rcases List.mem_cons.mp hxb with h | h
      · rw [h]; rfl
      · rcases List.mem_map.mp h with ⟨b, _, hb⟩
        rw [← hb]; rfl
    · rw [List.eq_of_mem_replicate hx]; rfl
  rw [delimOffset, hre, takeWhile_until_delim _ _ hmem]
  rw [renderToks_append, String.length_append, renderToks_hexArea_length,
    renderToks_pads_length, chunks_flatten h1, chunks_length h1]
  have hsplit := ceil_div_split h1 hlen
  set D1 := (line.length + align - 1) / align
  set D2 := (align * cpl - line.length) / align
  set P := align * cpl
  omega

/-! ## Counting line breaks -/

theorem nlCount_append (ts us : List Tok) :
    nlCount (ts ++ us) = nlCount ts + nlCount us :=
  List.countP_append _ _ _

theorem nlCount_lineToks (align cpl : Nat) (line : List Byte) :
    nlCount (lineToks align cpl line) = 0 := by
  rw [nlCount, List.countP_eq_zero]
  intro t ht
  simp only [lineToks, writeAscii, List.mem_append, List.mem_flatMap,
    List.mem_cons, List.mem_replicate, List.mem_map, List.mem_singleton,
    List.not_mem_nil, or_false, false_or] at ht
  rcases ht with ((⟨bytes, _, h | ⟨b, _, hb⟩⟩ | ⟨_, h⟩) | h) | ⟨b, _, hb⟩
  · rw [h]; simp
  · rw [← hb]; simp
  · rw [h]; simp
  · rw [h]; simp
  · rw [← hb]; simp

theorem nlCount_fmtLine (align cpl : Nat) (line : List Byte) :
    nlCount (fmtLine align cpl line) = 1 := by
  rw [fmtLine]
  have h1 : nlCount (Tok.nl :: lineToks align cpl line)
      = 1 + nlCount (lineToks align cpl line) := by
    rw [nlCount, nlCount, List.countP_cons]
    simp [Nat.add_comm]
  rw [h1, nlCount_lineToks]

theorem nlCount_flatMap_one {β : Type _} (g : β → List Tok) (cs : List β)
    (h : ∀ c ∈ cs, nlCount (g c) = 1) :
    nlCount (cs.flatMap g) = cs.length := by
  induction cs with
  | nil => rfl
  | cons c cs ih =>
    rw [List.flatMap_cons, nlCount_append, h c (List.mem_cons_self c cs),
      ih fun d hd => h d (List.mem_cons_of_mem c hd), List.length_cons]
    omega

theorem nlCount_writeAscii (l : List Byte) : nlCount (writeAscii l) = 0 := by
  rw [nlCount, List.countP_eq_zero]
  intro t ht
  rcases List.mem_map.mp ht with ⟨b, _, hb⟩
  rw [← hb]
  simp

theorem nlCount_hexMap (l : List Byte) : nlCount (l.map Tok.hex) = 0 := by
  rw [nlCount, List.countP_eq_zero]
  intro t ht
  rcases List.mem_map.mp ht with ⟨b, _, hb⟩
  rw [← hb]
  simp

theorem nlCount_barIf (p : Prop) [Decidable p] :
    nlCount (if p then [] else [Tok.bar]) = 0 := by
  split <;> rfl

/-- One line break is emitted per chunk of the post-prefix bytes, and
nothing else emits one. -/
theorem nlCount_fmtToks (B : List Byte) (align off : Nat) :
    nlCount (fmtToks B align off)
      = (chunks (align * (32 / align)) (B.drop (min off B.length))).length := by
  simp only [fmtToks, nlCount_append, nlCount_hexMap, nlCount_writeAscii,
    nlCount_barIf, Nat.zero_add, Nat.add_zero]
  exact nlCount_flatMap_one _ _ fun c _ => nlCount_fmtLine align (32 / align) c

/-- Two chunks exactly when the length is in `(k, 2k]`. -/
theorem chunks_pair {α : Type _} {k : Nat} (hk : 0 < k) (l : List α)
    (h1 : k < l.length) (h2 : l.length ≤ 2 * k) :
    chunks k l = [l.take k, l.drop k] := by
  cases l with
  | nil => simp at h1
  | cons x xs =>
    rw [chunks_cons hk]
    congr 1
    apply chunks_single hk
    · intro hnil
      have hlen := congrArg List.length hnil
      simp only [List.length_drop, List.length_cons, List.length_nil] at hlen
      simp only [List.length_cons] at h1
      omega
    · simp only [List.length_drop, List.length_cons]
      simp only [List.length_cons] at h2
      omega

/-- C2 — Line wrapping and ASCII-column alignment.  First part: with
`align = 4` (`chunks_per_line = 32/4 = 8`) and offset `0`, a 40-byte
buffer wraps into exactly two lines (two line breaks are emitted), the
first holding its first 32 bytes and the second the remaining 8.  Second
part: in every emitted line of any call (`0 < align ≤ 32`), the padding
`3*fill + 2*(fill/align)` puts the `" | "` ASCII-column delimiter at the
same character offset `3*align*chunks_per_line + 2*chunks_per_line`
within the line. -/
theorem line_wrap_alignment :
    (∀ B : List Byte, B.length = 40 →
      nlCount (fmtToks B 4 0) = 2 ∧
      chunks (4 * (32 / 4)) (B.drop (min 0 B.length)) = [B.take 32, B.drop 32] ∧
      (B.take 32).length = 32 ∧ (B.drop 32).length = 8) ∧
    (∀ (B : List Byte) (align off : Nat), 0 < align → align ≤ 32 →
      ∀ line ∈ chunks (align * (32 / align)) (B.drop (min off B.length)),
        delimOffset (lineToks align (32 / align) line)
          = 3 * (align * (32 / align)) + 2 * (32 / align)) := by
  constructor
  · intro B hB
    have hmin : min 0 B.length = 0 := Nat.zero_min B.length
    have hk : (4 : Nat) * (32 / 4) = 32 := by norm_num
    have hpair : chunks 32 B = [B.take 32, B.drop 32] :=
      chunks_pair (by norm_num) B (by omega) (by omega)
    refine ⟨?_, ?_, ?_, ?_⟩
    · rw [nlCount_fmtToks B 4 0, hmin, List.drop_zero, hk, hpair]
      rfl
    · rw [hmin, List.drop_zero, hk, hpair]
    · rw [List.length_take]; omega
    · rw [List.length_drop]; omega
  · intro B align off h1 h2 line hline
    have hcpl : 0 < 32 / align := Nat.div_pos h2 h1
    have hsz : 0 < align * (32 / align) := Nat.mul_pos h1 hcpl
    have hlen := (chunks_mem hsz _ line hline).1
    exact delimOffset_lineToks align (32 / align) h1 line hlen

/-- Witness for C2: the 40-byte part at `B = replicate 40 0x41`, the
delimiter-offset part at `B = [0x41]`, `align = 4`, offset `0`,
`line = [0x41]` (offset `3*32 + 16 = 112`). -/
theorem line_wrap_alignment_witness :
    ((List.replicate 40 (0x41 : Byte)).length = 40 ∧
      (nlCount (fmtToks (List.replicate 40 (0x41 : Byte)) 4 0) = 2 ∧
        chunks (4 * (32 / 4))
            ((List.replicate 40 (0x41 : Byte)).drop
              (min 0 (List.replicate 40 (0x41 : Byte)).length))
          = [(List.replicate 40 (0x41 : Byte)).take 32,
              (List.replicate 40 (0x41 : Byte)).drop 32] ∧
        ((List.replicate 40 (0x41 : Byte)).take 32).length = 32 ∧
        ((List.replicate 40 (0x41 : Byte)).drop 32).length = 8)) ∧
    ((0 : Nat) < 4 ∧ (4 : Nat) ≤ 32 ∧
      [(0x41 : Byte)] ∈ chunks (4 * (32 / 4))
        (([0x41] : List Byte).drop (min 0 ([0x41] : List Byte).length)) ∧
      delimOffset (lineToks 4 (32 / 4) [(0x41 : Byte)])
        = 3 * (4 * (32 / 4)) + 2 * (32 / 4)) :=
  ⟨⟨by decide, line_wrap_alignment.1 (List.replicate 40 (0x41 : Byte)) (by decide)⟩,
    ⟨by decide, by decide, by decide,
      line_wrap_alignment.2 [0x41] 4 0 (by decide) (by decide) [0x41] (by decide)⟩⟩

/-! ## Last and first tokens of a trace -/

theorem getLast_append_ne {α : Type _} {l1 l2 : List α} (h : l2 ≠ []) :
    (l1 ++ l2).getLast? = l2.getLast? := by
  rw [List.getLast?_append]
  cases h2 : l2.getLast? with
  | none => exact absurd (List.getLast?_eq_none_iff.mp h2) h
  | some a => rfl

theorem getLast_map_opt {α β : Type _} (f : α → β) :
    ∀ l : List α, (l.map f).getLast? = l.getLast?.map f
  | [] => rfl
  | [a] => rfl
  | a :: b :: m => by
    rw [List.map_cons, List.map_cons, List.getLast?_cons_cons,
      List.getLast?_cons_cons, ← List.map_cons]
    exact getLast_map_opt f (b :: m)

theorem writeAscii_ne_nil {c : List Byte} (h : c ≠ []) : writeAscii c ≠ [] := by
  intro hm
  apply h
  simpa [writeAscii] using hm

/-- A line trace for a non-empty line ends in an ASCII-column token. -/
theorem fmtLine_getLast {align cpl : Nat} {c : List Byte} (h : c ≠ []) :
    ∃ b, (fmtLine align cpl c).getLast? = some (Tok.ascii b) := by
  have hwa : writeAscii c ≠ [] := writeAscii_ne_nil h
  have hre : fmtLine align cpl c
      = (Tok.nl :: (((chunks align c).flatMap fun bytes => Tok.bar :: bytes.map Tok.hex)
          ++ List.replicate
              (3 * (align * cpl - c.length)
                + 2 * ((align * cpl - c.length) / align)) Tok.pad
          ++ [Tok.delim]))
        ++ writeAscii c := by
    simp [fmtLine, lineToks, List.cons_append, List.append_assoc]
  rw [hre, getLast_append_ne hwa, writeAscii, getLast_map_opt]
  cases hc : c.getLast? with
  | none => exact absurd (List.getLast?_eq_none_iff.mp hc) h
  | some b => exact ⟨b, rfl⟩

/-- A non-empty run of line traces of non-empty lines ends in an
ASCII-column token. -/
theorem flatMap_fmtLine_getLast {align cpl : Nat} (cs : List (List Byte))
    (hall : ∀ c ∈ cs, c ≠ []) (hne : cs ≠ []) :
    ∃ b, (cs.flatMap (fmtLine align cpl)).getLast? = some (Tok.ascii b) := by
  induction cs with
  | nil => exact absurd rfl hne
  | cons c cs ih =>
    cases cs with
    | nil =>
      rw [List.flatMap_cons, List.flatMap_nil, List.append_nil]
      exact fmtLine_getLast (hall c (List.mem_cons_self c []))
    | cons d ds =>
      have hflat : ((d :: ds).flatMap (fmtLine align cpl)) ≠ [] := by
        rw [List.flatMap_cons, fmtLine, List.cons_append]
        simp
      obtain ⟨b, hb⟩ := ih (fun e he => hall e (List.mem_cons_of_mem c he)) (by simp)
      refine ⟨b, ?_⟩
      rw [List.flatMap_cons, getLast_append_ne hflat]
      exact hb

/-- C9 — Implicit line-break invariants: every emitted aligned line carries
at least one byte (hence at least one hex token: no line is only padding
and delimiters); the number of emitted line breaks is
`ceil((N - prefix_len) / (align*chunks_per_line))`, one per non-empty
chunk of the post-prefix bytes; when the prefix is empty and the buffer is
not, the trace begins with the line break; and the trace never ends with a
line break. -/
theorem line_break_structure (B : List Byte) (align off : Nat)
    (h1 : 0 < align) (h2 : align ≤ 32) :
    (∀ line ∈ chunks (align * (32 / align)) (B.drop (min off B.length)),
        line ≠ [] ∧ hexBytes (fmtLine align (32 / align) line) = line) ∧
    nlCount (fmtToks B align off)
      = ((B.length - min off B.length) + align * (32 / align) - 1)
          / (align * (32 / align)) ∧
    (min off B.length = 0 → B ≠ [] → (fmtToks B align off).head? = some Tok.nl) ∧
    (fmtToks B align off).getLast? ≠ some Tok.nl := by
  have hcpl : 0 < 32 / align := Nat.div_pos h2 h1
  have hsz : 0 < align * (32 / align) := Nat.mul_pos h1 hcpl
  refine ⟨?_, ?_, ?_, ?_⟩
  · intro line hline
    refine ⟨(chunks_mem hsz _ line hline).2, ?_⟩
    rw [fmtLine, hexBytes_cons_nl, hexBytes_lineToks h1]
  · rw [nlCount_fmtToks, chunks_length hsz, List.length_drop]
  · intro hpre hB
    have hsplit : fmtToks B align off
        = (chunks (align * (32 / align)) B).flatMap (fmtLine align (32 / align)) := by
      simp [fmtToks, hpre, writeAscii]
    cases B with
    | nil => exact absurd rfl hB
    | cons x xs =>
      rw [hsplit, chunks_cons hsz, List.flatMap_cons, fmtLine, List.cons_append]
      rfl
  · have hsplit2 : fmtToks B align off
        = ((B.take (min off B.length)).map Tok.hex
            ++ (if (B.take (min off B.length)).isEmpty then [] else [Tok.bar])
            ++ writeAscii (B.take (min off B.length)))
          ++ (chunks (align * (32 / align)) (B.drop (min off B.length))).flatMap
              (fmtLine align (32 / align)) := by
      simp [fmtToks, List.append_assoc]
    rw [hsplit2]
    cases hcs : chunks (align * (32 / align)) (B.drop (min off B.length)) with
    | nil =>
      rw [List.flatMap_nil, List.append_nil]
      cases hpre : B.take (min off B.length) with
      | nil => simp [writeAscii]
      | cons x xs =>
        have hwa : writeAscii (x :: xs) ≠ [] := writeAscii_ne_nil (by simp)
        rw [getLast_append_ne hwa, writeAscii, getLast_map_opt]
        cases hgl : (x :: xs).getLast? with
        | none => simp
        | some b => simp
    | cons c cs =>
      have hflat : ((c :: cs).flatMap (fmtLine align (32 / align))) ≠ [] := by
        rw [List.flatMap_cons, fmtLine, List.cons_append]
        simp
      rw [getLast_append_ne hflat]
      have hall : ∀ d ∈ c :: cs, d ≠ [] := by
        intro d hd
        exact (chunks_mem hsz _ d (by rw [hcs]; exact hd)).2
      obtain ⟨b, hb⟩ := flatMap_fmtLine_getLast (c :: cs) hall (by simp)
      rw [hb]
      simp

/-- Witness for C9 at `B = [0x41, 0x42]`, `align = 8`, offset `0`. -/
theorem line_break_structure_witness :
    (0 : Nat) < 8 ∧ (8 : Nat) ≤ 32 ∧
    ((∀ line ∈ chunks (8 * (32 / 8))
          (([0x41, 0x42] : List Byte).drop (min 0 ([0x41, 0x42] : List Byte).length)),
        line ≠ [] ∧ hexBytes (fmtLine 8 (32 / 8) line) = line) ∧
      nlCount (fmtToks [0x41, 0x42] 8 0)
        = ((([0x41, 0x42] : List Byte).length
              - min 0 ([0x41, 0x42] : List Byte).length) + 8 * (32 / 8) - 1)
            / (8 * (32 / 8)) ∧
      (min 0 ([0x41, 0x42] : List Byte).length = 0 → ([0x41, 0x42] : List Byte) ≠ [] →
        (fmtToks [0x41, 0x42] 8 0).head? = some Tok.nl) ∧
      (fmtToks [0x41, 0x42] 8 0).getLast? ≠ some Tok.nl) :=
  ⟨by decide, by decide, line_break_structure [0x41, 0x42] 8 0 (by decide) (by decide)⟩

/-- C10 — Implicit full-prefix edge case: when the clamped alignment offset
equals the buffer length (`N > 0`), the whole buffer is the unaligned
prefix: the trace is exactly the `N` hex tokens, then `" |"`, then the
ASCII rendering appended directly — no line break, no padding, and no
trailing `" | "` delimiter; the rendered output is that single line. -/
theorem full_prefix_case (B : List Byte) (align off : Nat)
    (h1 : 0 < align) (h2 : align ≤ 32) (hB : B ≠ []) (hoff : B.length ≤ off) :
    fmtToks B align off = B.map Tok.hex ++ [Tok.bar] ++ writeAscii B ∧
    format B align off
      = some (renderToks (B.map Tok.hex) ++ " |" ++ renderToks (writeAscii B)) ∧
    nlCount (fmtToks B align off) = 0 := by
  have hcpl : 0 < 32 / align := Nat.div_pos h2 h1
  have hmin : min off B.length = B.length := min_eq_right hoff
  have htoks : fmtToks B align off = B.map Tok.hex ++ [Tok.bar] ++ writeAscii B := by
    simp only [fmtToks, hmin, List.take_length, List.drop_length, chunks_nil,
      List.flatMap_nil, List.append_nil]
    rw [if_neg]
    intro hE
    exact hB (List.isEmpty_iff.mp hE)
  refine ⟨htoks, ?_, ?_⟩
  · rw [format, if_neg (by omega), htoks, renderToks_append, renderToks_append]
    have hbar : renderToks [Tok.bar] = " |" := rfl
    rw [hbar]
  · rw [htoks, nlCount_append, nlCount_append, nlCount_hexMap, nlCount_writeAscii]
    rfl

/-- Witness for C10 at `B = [0x90, 0x41]`, `align = 4`, offset `7`. -/
theorem full_prefix_case_witness :
    (0 : Nat) < 4 ∧ (4 : Nat) ≤ 32 ∧ ([0x90, 0x41] : List Byte) ≠ [] ∧
    ([0x90, 0x41] : List Byte).length ≤ 7 ∧
    (fmtToks [0x90, 0x41] 4 7
        = ([0x90, 0x41] : List Byte).map Tok.hex ++ [Tok.bar]
          ++ writeAscii [0x90, 0x41] ∧
      format [0x90, 0x41] 4 7
        = some (renderToks (([0x90, 0x41] : List Byte).map Tok.hex) ++ " |"
            ++ renderToks (writeAscii [0x90, 0x41])) ∧
      nlCount (fmtToks [0x90, 0x41] 4 7) = 0) :=
  ⟨by decide, by decide, by decide, by decide,
    full_prefix_case [0x90, 0x41] 4 7 (by decide) (by decide) (by decide) (by decide)⟩

/-! ## State-passing model of the `Formatter`

The token model above lists the writes; this model threads the
`Formatter`'s accumulated string through every `write_str`/`write_fmt`
call, exactly as the source's `f` does, and is proved equal to rendering
the token trace. -/

/-- The hex loops (`for &char in pre` and the inner byte loop): each
iteration appends `" {:02X}"`. -/
def writeHexRun (buf : List Byte) (f : String) : String :=
  buf.foldl (fun f b => f ++ (" " ++ hex2 b)) f

/-- State-passing model of `write_ascii`. -/
def writeAsciiRun (buf : List Byte) (f : String) : String :=
  buf.foldl (fun f b => f ++ asciiChar b) f

/-- The fill loop `for _ in 0..fill { f.write_str(" ")? }`. -/
def spacesRun : Nat → String → String
  | 0, f => f
  | n + 1, f => spacesRun n (f ++ " ")

/-- State-passing model of one iteration of the line loop of `Buf::fmt`. -/
def lineRun (align cpl : Nat) (line : List Byte) (f : String) : String :=
  let f := f ++ "\n"
  let f := (chunks align line).foldl (fun f bytes => writeHexRun bytes (f ++ " |")) f
  let fill := align * cpl - line.length
  let fill := 3 * fill + 2 * (fill / align)
  let f := spacesRun fill f
  let f := f ++ " | "
  writeAsciiRun line f

/-- State-passing model of the whole of `Buf::fmt`, starting from whatever
output the `Formatter` already accumulated. -/
def fmtRun (bytes : List Byte) (align off : Nat) (f : String) : Option String :=
  if 32 / align = 0 then none else
  let chunks_per_line := 32 / align
  let offset := min off bytes.length
  let pre := bytes.take offset
  let rest := bytes.drop offset
  let f := writeHexRun pre f
  let f := if pre.isEmpty then f else f ++ " |"
  let f := writeAsciiRun pre f
  some ((chunks (align * chunks_per_line) rest).foldl
    (fun f line => lineRun align chunks_per_line line f) f)

theorem writeHexRun_eq (buf : List Byte) (f : String) :
    writeHexRun buf f = f ++ renderToks (buf.map Tok.hex) := by
  induction buf generalizing f with
  | nil =>
    show f = f ++ renderToks []
    simp [renderToks]
  | cons b bs ih =>
    show writeHexRun (b :: bs) f = _
    rw [writeHexRun, List.foldl_cons, ← writeHexRun, ih]
    have hr : renderToks ((b :: bs).map Tok.hex)
        = (" " ++ hex2 b) ++ renderToks (bs.map Tok.hex) := rfl
    rw [hr, String.append_assoc]

theorem writeAsciiRun_eq (buf : List Byte) (f : String) :
    writeAsciiRun buf f = f ++ renderToks (writeAscii buf) := by
  induction buf generalizing f with
  | nil =>
    show f = f ++ renderToks []
    simp [renderToks]
  | cons b bs ih =>
    show writeAsciiRun (b :: bs) f = _
    rw [writeAsciiRun, List.foldl_cons, ← writeAsciiRun, ih]
    have hr : renderToks (writeAscii (b :: bs))
        = asciiChar b ++ renderToks (writeAscii bs) := rfl
    rw [hr, String.append_assoc]

theorem spacesRun_eq (n : Nat) (f : String) :
    spacesRun n f = f ++ renderToks (List.replicate n Tok.pad) := by
  induction n generalizing f with
  | zero =>
    show f = f ++ renderToks []
    simp [renderToks]
  | succ n ih =>
    rw [spacesRun, ih, List.replicate_succ]
    have hr : renderToks (Tok.pad :: List.replicate n Tok.pad)
        = " " ++ renderToks (List.replicate n Tok.pad) := rfl
    rw [hr, String.append_assoc]

theorem hexChunksFold_eq (cs : List (List Byte)) (f : String) :
    cs.foldl (fun f bytes => writeHexRun bytes (f ++ " |")) f
      = f ++ renderToks (cs.flatMap fun bytes => Tok.bar :: bytes.map Tok.hex) := by
  induction cs generalizing f with
  | nil =>
    show f = f ++ renderToks []
    simp [renderToks]
  | cons c cs ih =>
    rw [List.foldl_cons, ih, writeHexRun_eq, List.flatMap_cons, renderToks_append]
    have hr : renderToks (Tok.bar :: c.map Tok.hex)
        = " |" ++ renderToks (c.map Tok.hex) := rfl
    rw [hr]
    simp [String.append_assoc]

theorem lineRun_eq (align cpl : Nat) (line : List Byte) (f : String) :
    lineRun align cpl line f = f ++ renderToks (fmtLine align cpl line) := by
  simp only [lineRun]
  rw [hexChunksFold_eq, spacesRun_eq, writeAsciiRun_eq]
  have h1 : renderToks (fmtLine align cpl line)
      = "\n" ++ renderToks (lineToks align cpl line) := rfl
  have h2 : renderToks (lineToks align cpl line)
      = renderToks ((chunks align line).flatMap
            fun bytes => Tok.bar :: bytes.map Tok.hex)
        ++ (renderToks (List.replicate
              (3 * (align * cpl - line.length)
                + 2 * ((align * cpl - line.length) / align)) Tok.pad)
          ++ (" | " ++ renderToks (writeAscii line))) := by
    have h3 : renderToks (Tok.delim :: writeAscii line)
        = " | " ++ renderToks (writeAscii line) := rfl
    simp [lineToks, renderToks_append, h3, String.append_assoc]
  rw [h1, h2]
  simp [String.append_assoc]

theorem lineFold_eq (align cpl : Nat) (cs : List (List Byte)) (f : String) :
    cs.foldl (fun f line => lineRun align cpl line f) f
      = f ++ renderToks (cs.flatMap (fmtLine align cpl)) := by
  induction cs generalizing f with
  | nil =>
    show f = f ++ renderToks []
    simp [renderToks]
  | cons c cs ih =>
    rw [List.foldl_cons, ih, lineRun_eq, List.flatMap_cons, renderToks_append,
      String.append_assoc]

/-- C6 — Determinism and absence of hidden state: running the formatter
from any already-accumulated formatter state `f` appends a string that is
a pure function of `(bytes, align, alignment_offset)` alone — so two calls
with identical inputs append byte-identical output, and nothing besides
the inputs (no randomness, no mutable state) influences the result. -/
theorem pure_formatter (B : List Byte) (align off : Nat) (f : String) :
    fmtRun B align off f = (format B align off).map fun out => f ++ out := by
  by_cases h : 32 / align = 0
  · simp [fmtRun, format, h]
  · simp only [fmtRun, format, if_neg h, Option.map_some]
    congr 1
    rw [lineFold_eq, writeAsciiRun_eq, writeHexRun_eq]
    have h4 : renderToks (fmtToks B align off)
        = renderToks ((B.take (min off B.length)).map Tok.hex)
          ++ (renderToks (if (B.take (min off B.length)).isEmpty then []
                else [Tok.bar])
            ++ (renderToks (writeAscii (B.take (min off B.length)))
              ++ renderToks ((chunks (align * (32 / align))
                    (B.drop (min off B.length))).flatMap
                  (fmtLine align (32 / align))))) := by
      simp [fmtToks, renderToks_append, String.append_assoc]
    rw [h4]
    by_cases hpre : (B.take (min off B.length)).isEmpty
    · rw [if_pos hpre, if_pos hpre]
      show _ = f ++ (_ ++ (renderToks [] ++ _))
      simp [renderToks, String.append_assoc]
    · rw [if_neg hpre, if_neg hpre]
      have h5 : renderToks [Tok.bar] = " |" := rfl
      rw [h5]
      simp [String.append_assoc]

end Memdbg

